import Mathlib

/-!
Verification of the HHBBC abstract-interpreter protocol declared in
`hphp/hhbbc/interp.h`: the StepFlags / RunFlags effect-summary model, the
instruction stepper and the block runner.  The header gives the data model
(default field values, the tracked-locals bounds, the `run`/`step`/`const_fold`
signatures and their documented contracts); the per-opcode semantics table and
the bodies of `step`/`run` are not part of the source fragment, so those are
modelled from the specification's protocol description and marked as such.
-/

namespace HHBBC

/-- Modelled from the spec: `LocalId` sentinel `NoLocalId` (declared in
`hphp/hhbbc/misc.h`, which is outside the source fragment); an id that marks
the absence of a local.  Local ids are natural numbers. -/
def NoLocalId : Nat := 4294967295

/-- Modelled from the spec: `BlockId` sentinel `NoBlockId` (declared in
`hphp/hhbbc/misc.h`, outside the source fragment); marks the absence of a
jump destination. -/
def NoBlockId : Nat := 4294967295

/-- From `interp.h`: `constexpr int kMaxTrackedLocals = 512;`. -/
def kMaxTrackedLocals : Nat := 512

/-- From `interp.h`: `constexpr int kMaxTrackedClsRefSlots = 64;`. -/
def kMaxTrackedClsRefSlots : Nat := 64

/-- Modelled from the spec: the opaque abstract-value lattice (`Type` from
`hphp/hhbbc/type-system.h`, outside the source fragment).  The claims only
need `Bottom`, `Top`, singleton integer constants and a non-singleton
integer type. -/
inductive AType : Type where
  | Bot : AType
  | IntVal : Int → AType
  | IntT : AType
  | Top : AType
deriving DecidableEq

/-- Modelled from the spec: is this lattice element a single
statically-known constant value? -/
def AType.isConst : AType → Bool
  | .IntVal _ => true
  | _ => false

/-- Modelled from the spec: the lattice join. -/
def AType.join : AType → AType → AType
  | .Bot, t => t
  | t, .Bot => t
  | .Top, _ => .Top
  | _, .Top => .Top
  | .IntVal a, .IntVal b => if a = b then .IntVal a else .IntT
  | .IntVal _, .IntT => .IntT
  | .IntT, .IntVal _ => .IntT
  | .IntT, .IntT => .IntT

/-- Modelled from the spec: abstract addition used by the `AddOp` handler of
the mini semantics table; constant inputs fold, anything else widens to the
non-singleton integer type. -/
def AType.addT : AType → AType → AType
  | .IntVal a, .IntVal b => .IntVal (a + b)
  | _, _ => .IntT

/-- Modelled from the spec: the closed `Bytecode` variant (the real table of
hundreds of opcodes is explicitly out of scope; this mini table exercises
every behaviour the protocol distinguishes: pushes, local reads/writes,
arithmetic, unconditional jumps, returns of a local or a literal, local
static observation, and an unanalyzable instruction). -/
inductive Bytecode : Type where
  | Nop : Bytecode
  | PushConst : Int → Bytecode
  | PushLocal : Nat → Bytecode
  | AssignConst : Nat → Int → Bytecode
  | AddOp : Bytecode
  | Jmp : Nat → Bytecode
  | RetLocal : Nat → Bytecode
  | RetConst : Int → Bytecode
  | UseStatic : Nat → Bytecode
  | Unknown : Bytecode
deriving DecidableEq

/-- From `interp.h` (struct `StepFlags`): the per-instruction effect summary.
Field order, types and default member initializers follow the header:
`wasPEI = true`, `jmpDest = NoBlockId`, `canConstProp = false`,
`effectFree = false`, a zero `std::bitset<kMaxTrackedLocals>` (modelled as a
finite set of tracked ids), empty `strengthReduced` and `returned` optionals,
`retParam{NoLocalId}`, and a null `usedLocalStatics` map (modelled as an
empty association list). -/
structure StepFlags : Type where
  wasPEI : Bool := true
  jmpDest : Nat := NoBlockId
  canConstProp : Bool := false
  effectFree : Bool := false
  mayReadLocalSet : Finset (Fin kMaxTrackedLocals) := ∅
  strengthReduced : Option (List Bytecode) := none
  returned : Option AType := none
  retParam : Nat := NoLocalId
  usedLocalStatics : List (Nat × AType) := []
deriving DecidableEq

/-- A default-constructed `StepFlags`, as produced by `StepFlags flags;` in
the runner before any handler relaxes a field. -/
def StepFlags.init : StepFlags := {}

/-- From `interp.h`'s comment on `mayReadLocalSet`: local ids past
`kMaxTrackedLocals` are not tracked and "are assumed to always be in this
set"; ids below the bound are looked up in the bitset. -/
def StepFlags.mayReadLocal (fl : StepFlags) (l : Nat) : Bool :=
  if h : l < kMaxTrackedLocals then decide (⟨l, h⟩ ∈ fl.mayReadLocalSet) else true

/-- From `interp.h` (struct `RunFlags`): the whole-block summary: the joined
returned type, the echoed parameter id, and the local statics used. -/
structure RunFlags : Type where
  returned : Option AType := none
  retParam : Nat := NoLocalId
  usedLocalStatics : List (Nat × AType) := []
deriving DecidableEq

/-- The empty `RunFlags` accumulator the runner starts from. -/
def RunFlags.init : RunFlags := {}

/-- Modelled from the spec: the analysis `Context` (from
`hphp/hhbbc/context.h`, outside the source fragment).  The claims only need
the declared parameter count of the function under analysis, used to decide
whether a returned local is a parameter echo. -/
structure Ctx : Type where
  nParams : Nat

/-- Modelled from the spec: `AnalysisState` (`State` from the interpreter
state header, outside the source fragment): a mapping from local slots to
abstract types plus an abstract operand stack. -/
structure State : Type where
  locals : List AType
  stack : List AType
deriving DecidableEq

/-- Modelled from the spec: reading a local slot; out-of-range slots widen to
`Top` rather than failing. -/
def State.getLocal (st : State) (l : Nat) : AType :=
  st.locals.getD l .Top

/-- Modelled from the spec: writing a local slot. -/
def State.setLocal (st : State) (l : Nat) (t : AType) : State :=
  { st with locals := st.locals.set l t }

/-- Modelled from the spec: widening every tracked slot to `Top`, the
conservative response to an unanalyzable instruction. -/
def State.widenTop (st : State) : State :=
  { locals := st.locals.map (fun _ => .Top), stack := st.stack.map (fun _ => .Top) }

/-- Modelled from the spec: the bitset entry for one tracked local read; ids
at or beyond `kMaxTrackedLocals` have no bit and cannot be recorded. -/
def localBit (l : Nat) : Finset (Fin kMaxTrackedLocals) :=
  if h : l < kMaxTrackedLocals then {⟨l, h⟩} else ∅

/-- Modelled from the spec: which locals an instruction's abstract semantics
reads (the instrumented "actually touched" set of spec §8.1); the
unanalyzable instruction must be assumed to read everything. -/
def readsLocal : Bytecode → Nat → Prop
  | .PushLocal loc, l => l = loc
  | .RetLocal loc, l => l = loc
  | .UseStatic loc, l => l = loc
  | .Unknown, _ => True
  | _, _ => False

/-- Modelled from the spec: how many operand-stack slots an instruction
consumes; supplying fewer is a caller contract violation. -/
def stackNeed : Bytecode → Nat
  | .AddOp => 2
  | _ => 0

/-- Modelled from the spec: `step(Interp&, const Bytecode&) -> StepFlags`
(the body lives in `interp.cpp`, outside the source fragment).  Dispatches to
the per-opcode abstract semantics, mutating the state (returned here
explicitly) and reporting a `StepFlags` summary whose every field starts at
its conservative default and is only relaxed by the handler.  `none` models
the fatal abort reserved for caller contract violations (operand-stack
underflow); an unanalyzable instruction instead widens to `Top` under fully
conservative flags. -/
def step (ctx : Ctx) (st : State) (op : Bytecode) : Option (StepFlags × State) :=
  match op with
  | .Nop =>
      some ({ wasPEI := false, effectFree := true }, st)
  | .PushConst v =>
      some ({ wasPEI := false, canConstProp := true, effectFree := true },
            { st with stack := .IntVal v :: st.stack })
  | .PushLocal loc =>
      let t := st.getLocal loc
      some ({ wasPEI := false, canConstProp := true, effectFree := t.isConst,
              mayReadLocalSet := localBit loc },
            { st with stack := t :: st.stack })
  | .AssignConst loc v =>
      some ({ wasPEI := false }, st.setLocal loc (.IntVal v))
  | .AddOp =>
      match st.stack with
      | a :: b :: rest =>
          let r := AType.addT a b
          some ({ wasPEI := false, canConstProp := true, effectFree := r.isConst },
                { st with stack := r :: rest })
      | _ => none
  | .Jmp target =>
      some ({ wasPEI := false, jmpDest := target }, st)
  | .RetLocal loc =>
      some ({ wasPEI := false, mayReadLocalSet := localBit loc,
              returned := some (st.getLocal loc),
              retParam := if loc < ctx.nParams then loc else NoLocalId }, st)
  | .RetConst v =>
      some ({ wasPEI := false, returned := some (.IntVal v), retParam := NoLocalId }, st)
  | .UseStatic loc =>
      some ({ wasPEI := false, mayReadLocalSet := localBit loc,
              usedLocalStatics := [(loc, st.getLocal loc)] }, st)
  | .Unknown =>
      some ({ mayReadLocalSet := Finset.univ }, st.widenTop)

/-- Modelled from the spec: `php::Block` (from the representation header,
outside the source fragment): an ordered instruction sequence plus edge
metadata — an optional fallthrough successor and the exception (throw-exit)
handler blocks. -/
structure Block : Type where
  hhbcs : List Bytecode
  fallthrough : Option Nat
  throwExits : List Nat

/-- A recorded `propagate` callback invocation: target block id and the
propagated state (`none` models the null-state re-process request). -/
abbrev PCall := Nat × Option State

/-- Modelled from the spec: folding one instruction's `StepFlags` into the
`RunFlags` accumulator (spec §4.3 steps 5 and 6): `usedLocalStatics` entries
are merged always; when the step returned, the returned type is joined into
the accumulator, and `retParam` is kept only while every return echoes the
same parameter. -/
def RunFlags.fold (acc : RunFlags) (fl : StepFlags) : RunFlags :=
  let acc1 : RunFlags :=
    { acc with usedLocalStatics := acc.usedLocalStatics ++ fl.usedLocalStatics }
  match fl.returned with
  | none => acc1
  | some t =>
      match acc1.returned with
      | none => { acc1 with returned := some t, retParam := fl.retParam }
      | some t0 =>
          { acc1 with returned := some (t0.join t),
                      retParam := if acc1.retParam = fl.retParam then acc1.retParam
                                  else NoLocalId }

/-- Modelled from the spec: the loop body of `run` (spec §4.3, body in
`interp.cpp`, outside the source fragment).  For each instruction: take the
pre-instruction snapshot, step, propagate that snapshot to every exception
edge when the step was a PEI and the block has exception edges, fold the
flags into the accumulator, and either stop at an unconditional jump
(propagating the current state to the sole successor) or continue; at normal
block end the current state goes to the fallthrough successor, if any.
`propagate` invocations are recorded in order in the returned trace; `none`
models the fatal abort on a caller contract violation inside a step. -/
def runFrom (ctx : Ctx) (exits : List Nat) (fall : Option Nat) :
    List Bytecode → State → RunFlags → Option (RunFlags × List PCall)
  | [], st, acc =>
      some (acc, match fall with | some b => [(b, some st)] | none => [])
  | op :: rest, st, acc =>
      match step ctx st op with
      | none => none
      | some (fl, st') =>
          let peis : List PCall :=
            if fl.wasPEI && !exits.isEmpty then exits.map (fun h => (h, some st)) else []
          let acc' := acc.fold fl
          if fl.jmpDest = NoBlockId then
            match runFrom ctx exits fall rest st' acc' with
            | none => none
            | some r => some (r.1, peis ++ r.2)
          else
            some (acc', peis ++ [(fl.jmpDest, some st')])

/-- Modelled from the spec: `run(Interp&, PropagateFn) -> RunFlags`; the
`PropagateFn` side effects are reified as the returned trace of calls. -/
def run (ctx : Ctx) (blk : Block) (st : State) : Option (RunFlags × List PCall) :=
  runFrom ctx blk.throwExits blk.fallthrough blk.hhbcs st RunFlags.init

/-- Modelled from the spec: the state as of entry to instruction `k` of the
block, when the run reaches it: `none` when the instruction list is too
short, a caller contract violation aborted an earlier step, or an earlier
instruction took an unconditional jump. -/
def reachedState (ctx : Ctx) : List Bytecode → State → Nat → Option State
  | _, st, 0 => some st
  | [], _, _ + 1 => none
  | op :: rest, st, k + 1 =>
      match step ctx st op with
      | none => none
      | some (fl, st') =>
          if fl.jmpDest = NoBlockId then reachedState ctx rest st' k else none

/-- Modelled from the spec: a resolved call target (`res::Func`, outside the
source fragment) as `const_fold` consults it: whether the target is a known
pure function, and its evaluation on concrete constant arguments, `none`
when evaluation is not provably side-effect-free and terminating there. -/
structure ResFunc : Type where
  knownPure : Bool
  evalOn : List Int → Option Int

/-- Modelled from the spec: extract the top `n` operand-stack entries as
concrete constants; `none` as soon as any of them is not a single
statically-known value. -/
def constArgs : Nat → List AType → Option (List Int)
  | 0, _ => some []
  | _ + 1, [] => none
  | n + 1, .IntVal v :: rest => (constArgs n rest).map (fun l => v :: l)
  | _ + 1, _ :: _ => none

/-- Modelled from the spec: `const_fold(ISS&, uint32_t, const res::Func&)
-> folly::Optional<Type>` (body outside the source fragment): evaluates a
call to a known pure function whose arguments are all statically-constant
in the current state; returns the concrete result type only when evaluation
is provably side-effect-free and terminating, and no result otherwise. -/
def const_fold (st : State) (nArgs : Nat) (rfunc : ResFunc) : Option AType :=
  if rfunc.knownPure then
    match constArgs nArgs st.stack with
    | some vals => (rfunc.evalOn vals).map AType.IntVal
    | none => none
  else none

/-- Modelled from the spec: the pure two-argument integer addition target of
spec §8.7 used to exercise `const_fold`. -/
def addFn : ResFunc :=
  { knownPure := true,
    evalOn := fun l => match l with | [a, b] => some (a + b) | _ => none }

/-! Helper lemmas shared by the claim theorems. -/

theorem drop_get {l : List Bytecode} {k : Nat} {op : Bytecode}
    (h : l.get? k = some op) : l.drop k = op :: l.drop (k + 1) := by
  have hk : k < l.length := (List.get?_eq_some.mp h).1
  rw [List.drop_eq_getElem_cons hk]
  congr 1
  have h2 : l[k]? = some op := by rw [← List.get?_eq_getElem?]; exact h
  simpa [List.getElem?_eq_getElem hk] using h2

theorem mayReadLocal_localBit {fl : StepFlags} {l : Nat}
    (hfl : fl.mayReadLocalSet = localBit l) : fl.mayReadLocal l = true := by
  unfold StepFlags.mayReadLocal
  split
  · next h => simp [hfl, localBit, dif_pos h]
  · rfl

theorem mayReadLocal_univ {fl : StepFlags} (hfl : fl.mayReadLocalSet = Finset.univ)
    (l : Nat) : fl.mayReadLocal l = true := by
  unfold StepFlags.mayReadLocal
  split
  · next h => simp [hfl]
  · rfl

theorem step_isSome (ctx : Ctx) (st : State) (op : Bytecode)
    (h : stackNeed op ≤ st.stack.length) : (step ctx st op).isSome = true := by
  cases op with
  | AddOp =>
      match hs : st.stack with
      | [] => rw [hs] at h; simp [stackNeed] at h
      | [a] => rw [hs] at h; simp [stackNeed] at h
      | a :: b :: rest => simp [step, hs]
  | Nop => simp [step]
  | PushConst v => simp [step]
  | PushLocal loc => simp [step]
  | AssignConst loc v => simp [step]
  | Jmp t => simp [step]
  | RetLocal loc => simp [step]
  | RetConst v => simp [step]
  | UseStatic loc => simp [step]
  | Unknown => simp [step]

theorem runFrom_isSome (ctx : Ctx) (exits : List Nat) (fall : Option Nat) :
    ∀ (instrs : List Bytecode) (st : State) (acc : RunFlags),
      (∀ (k : Nat) (op : Bytecode) (stk : State), instrs.get? k = some op →
        reachedState ctx instrs st k = some stk → stackNeed op ≤ stk.stack.length) →
      (runFrom ctx exits fall instrs st acc).isSome = true := by
  intro instrs
  induction instrs with
  | nil => intro st acc _; simp [runFrom]
  | cons op rest ih =>
      intro st acc H
      have h0 : stackNeed op ≤ st.stack.length := H 0 op st rfl rfl
      obtain ⟨⟨fl, st'⟩, hstep⟩ := Option.isSome_iff_exists.mp (step_isSome ctx st op h0)
      by_cases hj : fl.jmpDest = NoBlockId
      · have H' : ∀ (k : Nat) (op1 : Bytecode) (stk : State), rest.get? k = some op1 →
            reachedState ctx rest st' k = some stk → stackNeed op1 ≤ stk.stack.length := by
          intro k op1 stk hget hreach
          refine H (k + 1) op1 stk hget ?_
          simp [reachedState, hstep, hj, hreach]
        obtain ⟨r, hr⟩ := Option.isSome_iff_exists.mp (ih st' (acc.fold fl) H')
        simp [runFrom, hstep, hj, hr]
      · simp [runFrom, hstep, hj]

theorem runFrom_decomp (ctx : Ctx) (exits : List Nat) (fall : Option Nat) :
    ∀ (k : Nat) (instrs : List Bytecode) (st stk : State) (acc : RunFlags),
      reachedState ctx instrs st k = some stk →
      ∃ (acc1 : RunFlags) (tr1 : List PCall),
        runFrom ctx exits fall instrs st acc =
          (runFrom ctx exits fall (instrs.drop k) stk acc1).map
            (fun r => (r.1, tr1 ++ r.2)) := by
  intro k
  induction k with
  | zero =>
      intro instrs st stk acc hreach
      have hst : st = stk := by simpa [reachedState] using hreach
      subst hst
      refine ⟨acc, [], ?_⟩
      cases h : runFrom ctx exits fall instrs st acc <;> simp [h]
  | succ k ih =>
      intro instrs st stk acc hreach
      cases instrs with
      | nil => simp [reachedState] at hreach
      | cons op rest =>
          cases hstep : step ctx st op with
          | none => rw [reachedState, hstep] at hreach; exact absurd hreach (by simp)
          | some p =>
              obtain ⟨fl, st'⟩ := p
              rw [reachedState, hstep] at hreach
              have hreach2 : (if fl.jmpDest = NoBlockId then
                  reachedState ctx rest st' k else none) = some stk := hreach
              by_cases hj : fl.jmpDest = NoBlockId
              · rw [if_pos hj] at hreach2
                obtain ⟨acc1, tr1, heq⟩ := ih rest st' stk (acc.fold fl) hreach2
                refine ⟨acc1,
                  (if fl.wasPEI && !exits.isEmpty then
                     exits.map (fun h => (h, some st)) else []) ++ tr1, ?_⟩
                rw [List.drop_succ_cons]
                cases hrr : runFrom ctx exits fall (rest.drop k) stk acc1 with
                | none =>
                    rw [hrr] at heq
                    simp [runFrom, hstep, hj, heq, hrr]
                | some r =>
                    rw [hrr] at heq
                    simp [runFrom, hstep, hj, heq, hrr, List.append_assoc]
              · rw [if_neg hj] at hreach2; exact absurd hreach2 (by simp)

theorem reachedState_step (ctx : Ctx) :
    ∀ (k : Nat) (instrs : List Bytecode) (st stk : State) (op : Bytecode)
      (fl : StepFlags) (st' : State),
      reachedState ctx instrs st k = some stk →
      instrs.get? k = some op →
      step ctx stk op = some (fl, st') →
      fl.jmpDest = NoBlockId →
      reachedState ctx instrs st (k + 1) = some st' := by
  intro k
  induction k with
  | zero =>
      intro instrs st stk op fl st' hreach hget hstep hj
      have hst : st = stk := by simpa [reachedState] using hreach
      subst hst
      cases instrs with
      | nil => simp at hget
      | cons a rest =>
          have ha : a = op := by simpa using hget
          subst ha
          simp [reachedState, hstep, hj]
  | succ k ih =>
      intro instrs st stk op fl st' hreach hget hstep hj
      cases instrs with
      | nil => simp [reachedState] at hreach
      | cons a rest =>
          cases hsa : step ctx st a with
          | none => rw [reachedState, hsa] at hreach; exact absurd hreach (by simp)
          | some p =>
              obtain ⟨fla, st1⟩ := p
              rw [reachedState, hsa] at hreach
              have hreach2 : (if fla.jmpDest = NoBlockId then
                  reachedState ctx rest st1 k else none) = some stk := hreach
              by_cases hja : fla.jmpDest = NoBlockId
              · rw [if_pos hja] at hreach2
                have hget' : rest.get? k = some op := by simpa using hget
                have := ih rest st1 stk op fl st' hreach2 hget' hstep hj
                simp [reachedState, hsa, hja, this]
              · rw [if_neg hja] at hreach2; exact absurd hreach2 (by simp)

theorem runFrom_jmp_prefix (ctx : Ctx) (exits : List Nat) (fall : Option Nat) :
    ∀ (k : Nat) (l1 l2 : List Bytecode) (st : State) (acc : RunFlags)
      (stk : State) (op : Bytecode) (fl : StepFlags) (st' : State),
      l1.take (k + 1) = l2.take (k + 1) →
      reachedState ctx l1 st k = some stk →
      l1.get? k = some op →
      step ctx stk op = some (fl, st') →
      fl.jmpDest ≠ NoBlockId →
      runFrom ctx exits fall l1 st acc = runFrom ctx exits fall l2 st acc := by
  intro k
  induction k with
  | zero =>
      intro l1 l2 st acc stk op fl st' htake hreach hget hstep hj
      have hst : st = stk := by simpa [reachedState] using hreach
      cases l1 with
      | nil => simp at hget
      | cons a r1 =>
          cases l2 with
          | nil => simp at htake
          | cons b r2 =>
              have hab : a = b := by simpa using htake
              have hao : a = op := by simpa using hget
              subst hab
              have hstep' : step ctx st a = some (fl, st') := by
                rw [hao, hst]; exact hstep
              simp [runFrom, hstep', hj]
  | succ k ih =>
      intro l1 l2 st acc stk op fl st' htake hreach hget hstep hj
      cases l1 with
      | nil => simp [reachedState] at hreach
      | cons a r1 =>
          cases l2 with
          | nil => simp at htake
          | cons b r2 =>
              obtain ⟨hab, htake'⟩ : a = b ∧ r1.take (k + 1) = r2.take (k + 1) := by
                simpa using htake
              subst hab
              cases hsa : step ctx st a with
              | none =>
                  rw [reachedState, hsa] at hreach
                  exact absurd hreach (by simp)
              | some p =>
                  obtain ⟨fla, st1⟩ := p
                  rw [reachedState, hsa] at hreach
                  have hreach2 : (if fla.jmpDest = NoBlockId then
                      reachedState ctx r1 st1 k else none) = some stk := hreach
                  by_cases hja : fla.jmpDest = NoBlockId
                  · rw [if_pos hja] at hreach2
                    have hget' : r1.get? k = some op := by simpa using hget
                    have hrec := ih r1 r2 st1 (acc.fold fla) stk op fl st'
                      htake' hreach2 hget' hstep hj
                    simp [runFrom, hsa, hja, hrec]
                  · rw [if_neg hja] at hreach2; exact absurd hreach2 (by simp)

theorem fold_returned_isSome {acc : RunFlags} {fl : StepFlags}
    (h : fl.returned.isSome = true ∨ acc.returned.isSome = true) :
    ((acc.fold fl).returned).isSome = true := by
  unfold RunFlags.fold
  cases hfl : fl.returned with
  | none =>
      cases h with
      | inl h1 => rw [hfl] at h1; simp at h1
      | inr h2 => simpa using h2
  | some t =>
      cases hacc : acc.returned with
      | none => simp [hacc]
      | some t0 => simp [hacc]

theorem runFrom_preserves_returned (ctx : Ctx) (exits : List Nat) (fall : Option Nat) :
    ∀ (instrs : List Bytecode) (st : State) (acc : RunFlags) (rf : RunFlags)
      (tr : List PCall),
      acc.returned.isSome = true →
      runFrom ctx exits fall instrs st acc = some (rf, tr) →
      rf.returned.isSome = true := by
  intro instrs
  induction instrs with
  | nil =>
      intro st acc rf tr hacc hrun
      simp [runFrom] at hrun
      rw [← hrun.1]; exact hacc
  | cons op rest ih =>
      intro st acc rf tr hacc hrun
      cases hstep : step ctx st op with
      | none => rw [runFrom, hstep] at hrun; exact absurd hrun (by simp)
      | some p =>
          obtain ⟨fl, st'⟩ := p
          have hfold : ((acc.fold fl).returned).isSome = true :=
            fold_returned_isSome (Or.inr hacc)
          by_cases hj : fl.jmpDest = NoBlockId
          · cases hrr : runFrom ctx exits fall rest st' (acc.fold fl) with
            | none =>
                rw [runFrom, hstep] at hrun
                simp [hj, hrr] at hrun
            | some r =>
                rw [runFrom, hstep] at hrun
                simp [hj, hrr] at hrun
                exact hrun.1 ▸ ih st' (acc.fold fl) r.1 r.2 hfold (by rw [hrr])
          · rw [runFrom, hstep] at hrun
            simp [hj] at hrun
            rw [← hrun.1]; exact hfold

/-! Claim theorems. -/

/-- C5: a default-constructed `StepFlags` is the maximally conservative
summary: `wasPEI` is true, `jmpDest` is `NoBlockId`, `canConstProp` and
`effectFree` are false, `mayReadLocalSet` is empty, `strengthReduced` and
`returned` are absent, and `retParam` is `NoLocalId`. -/
theorem C5_stepflags_conservative_default :
    StepFlags.init.wasPEI = true ∧
    StepFlags.init.jmpDest = NoBlockId ∧
    StepFlags.init.canConstProp = false ∧
    StepFlags.init.effectFree = false ∧
    StepFlags.init.mayReadLocalSet = ∅ ∧
    StepFlags.init.strengthReduced = none ∧
    StepFlags.init.returned = none ∧
    StepFlags.init.retParam = NoLocalId :=
  ⟨rfl, rfl, rfl, rfl, rfl, rfl, rfl, rfl⟩

/-- C10: `kMaxTrackedLocals` is exactly 512 and `kMaxTrackedClsRefSlots` is
exactly 64; `mayReadLocalSet` has exactly 512 bits (its index type has
cardinality 512), so a local id of 512 or more can never be individually
recorded and is always in the assumed-read set. -/
theorem C10_tracked_limits :
    kMaxTrackedLocals = 512 ∧
    kMaxTrackedClsRefSlots = 64 ∧
    Fintype.card (Fin kMaxTrackedLocals) = 512 ∧
    (∀ (fl : StepFlags) (l : Nat), 512 ≤ l → fl.mayReadLocal l = true) := by
  refine ⟨rfl, rfl, by rw [Fintype.card_fin]; rfl, ?_⟩
  intro fl l hl
  unfold StepFlags.mayReadLocal
  rw [dif_neg]
  unfold kMaxTrackedLocals
  omega

/-- Witness for C10 at the first untracked local id. -/
theorem C10_tracked_limits_witness :
    StepFlags.init.mayReadLocal 512 = true :=
  C10_tracked_limits.2.2.2 StepFlags.init 512 (by decide)

/-- C9: the stepper and the block runner are deterministic: two invocations
on identical inputs produce identical flags and identical propagate traces.
In this embedding all state is explicit in the arguments, so there is no
hidden mutable global that could affect the outcome. -/
theorem C9_run_deterministic :
    ∀ (ctx : Ctx) (blk : Block) (st : State) (op : Bytecode),
      run ctx blk st = run ctx blk st ∧ step ctx st op = step ctx st op :=
  fun _ _ _ _ => ⟨rfl, rfl⟩

/-- C3: the read set never under-reports: for every instruction and every
local id its abstract semantics reads, the `mayReadLocalSet` of the
`StepFlags` returned by `step` contains that id's bit when the id is below
`kMaxTrackedLocals`, and ids at or above the limit are conservatively
assumed always present (both directions are expressed by
`StepFlags.mayReadLocal`). -/
theorem C3_mayread_sound :
    ∀ (ctx : Ctx) (st : State) (op : Bytecode) (fl : StepFlags) (st' : State)
      (l : Nat),
      step ctx st op = some (fl, st') →
      readsLocal op l →
      fl.mayReadLocal l = true := by
  intro ctx st op fl st' l hstep hread
  cases op with
  | Nop => simp [readsLocal] at hread
  | PushConst v => simp [readsLocal] at hread
  | AssignConst loc v => simp [readsLocal] at hread
  | AddOp => simp [readsLocal] at hread
  | Jmp t => simp [readsLocal] at hread
  | RetConst v => simp [readsLocal] at hread
  | PushLocal loc =>
      have hl : l = loc := hread
      subst hl
      simp [step] at hstep
      exact mayReadLocal_localBit (by rw [← hstep.1])
  | RetLocal loc =>
      have hl : l = loc := hread
      subst hl
      simp [step] at hstep
      exact mayReadLocal_localBit (by rw [← hstep.1])
  | UseStatic loc =>
      have hl : l = loc := hread
      subst hl
      simp [step] at hstep
      exact mayReadLocal_localBit (by rw [← hstep.1])
  | Unknown =>
      simp [step] at hstep
      exact mayReadLocal_univ (by rw [← hstep.1]) l

/-- Witness for C3: reading local 3 via `PushLocal` records bit 3. -/
theorem C3_mayread_sound_witness :
    StepFlags.mayReadLocal
      { wasPEI := false, canConstProp := true, effectFree := true,
        mayReadLocalSet := localBit 3 } 3 = true :=
  C3_mayread_sound ⟨0⟩ ⟨[.IntVal 7, .IntVal 7, .IntVal 7, .IntVal 5], []⟩
    (.PushLocal 3)
    { wasPEI := false, canConstProp := true, effectFree := true,
      mayReadLocalSet := localBit 3 }
    ⟨[.IntVal 7, .IntVal 7, .IntVal 7, .IntVal 5], [.IntVal 5]⟩
    3 (by rfl) rfl

/-- C4: whenever the `StepFlags` returned by `step` has `canConstProp` true
and the instruction's pushed result is a statically-known constant, the
flags also have `effectFree` true. -/
theorem C4_constprop_implies_effectfree :
    ∀ (ctx : Ctx) (st : State) (op : Bytecode) (fl : StepFlags) (st' : State),
      step ctx st op = some (fl, st') →
      fl.canConstProp = true →
      (∃ t, st'.stack.head? = some t ∧ t.isConst = true) →
      fl.effectFree = true := by
  intro ctx st op fl st' hstep hcp hconst
  cases op with
  | Nop => simp [step] at hstep; rw [← hstep.1] at hcp; simp at hcp
  | AssignConst loc v => simp [step] at hstep; rw [← hstep.1] at hcp; simp at hcp
  | Jmp t => simp [step] at hstep; rw [← hstep.1] at hcp; simp at hcp
  | RetLocal loc => simp [step] at hstep; rw [← hstep.1] at hcp; simp at hcp
  | RetConst v => simp [step] at hstep; rw [← hstep.1] at hcp; simp at hcp
  | UseStatic loc => simp [step] at hstep; rw [← hstep.1] at hcp; simp at hcp
  | Unknown => simp [step] at hstep; rw [← hstep.1] at hcp; simp at hcp
  | PushConst v => simp [step] at hstep; rw [← hstep.1]
  | PushLocal loc =>
      simp [step] at hstep
      obtain ⟨t, ht, hc⟩ := hconst
      rw [← hstep.2] at ht
      have htv : st.getLocal loc = t := by simpa using ht
      rw [← hstep.1]
      show (st.getLocal loc).isConst = true
      rw [htv]; exact hc
  | AddOp =>
      match hs : st.stack with
      | [] => simp [step, hs] at hstep
      | [a] => simp [step, hs] at hstep
      | a :: b :: rest =>
          simp [step, hs] at hstep
          obtain ⟨t, ht, hc⟩ := hconst
          rw [← hstep.2] at ht
          have htv : AType.addT a b = t := by simpa using ht
          rw [← hstep.1]
          show (AType.addT a b).isConst = true
          rw [htv]; exact hc

/-- Witness for C4: pushing the constant 5 is const-propagatable with a
constant result, and is reported effect-free. -/
theorem C4_constprop_implies_effectfree_witness :
    ({ wasPEI := false, canConstProp := true, effectFree := true } :
      StepFlags).effectFree = true :=
  C4_constprop_implies_effectfree ⟨0⟩ ⟨[], []⟩ (.PushConst 5)
    { wasPEI := false, canConstProp := true, effectFree := true }
    ⟨[], [.IntVal 5]⟩ (by rfl) rfl ⟨.IntVal 5, rfl, rfl⟩

/-- C7: neither `step` nor `run` signals failure across the core's boundary:
an unanalyzable instruction is handled by widening every type to `Top`
under fully conservative flags, and whenever the caller contract on operand
stack depth is honoured at every reached instruction, `step` and `run`
return a result. -/
theorem C7_no_failure :
    (∀ (ctx : Ctx) (st : State) (op : Bytecode),
        stackNeed op ≤ st.stack.length → (step ctx st op).isSome = true) ∧
    (∀ (ctx : Ctx) (st : State),
        step ctx st .Unknown =
          some ({ mayReadLocalSet := Finset.univ }, st.widenTop)) ∧
    (∀ (ctx : Ctx) (blk : Block) (st : State),
        (∀ (k : Nat) (op : Bytecode) (stk : State),
          blk.hhbcs.get? k = some op →
          reachedState ctx blk.hhbcs st k = some stk →
          stackNeed op ≤ stk.stack.length) →
        (run ctx blk st).isSome = true) :=
  ⟨step_isSome, fun _ _ => rfl,
   fun ctx blk st h =>
     runFrom_isSome ctx blk.throwExits blk.fallthrough blk.hhbcs st RunFlags.init h⟩

/-- Witness for C7: a concrete step of `AddOp` with a full-enough stack, and
a concrete run of a block containing an unanalyzable instruction, both
return results. -/
theorem C7_no_failure_witness :
    (step ⟨0⟩ ⟨[], [.IntVal 1, .IntVal 2]⟩ .AddOp).isSome = true ∧
    (run ⟨0⟩ ⟨[.PushConst 1, .Unknown], some 7, [3]⟩ ⟨[], []⟩).isSome = true := by
  constructor
  · exact C7_no_failure.1 ⟨0⟩ ⟨[], [.IntVal 1, .IntVal 2]⟩ .AddOp (by decide)
  · refine C7_no_failure.2.2 ⟨0⟩ ⟨[.PushConst 1, .Unknown], some 7, [3]⟩ ⟨[], []⟩ ?_
    intro k op stk hget hreach
    match k, hget with
    | 0, hget =>
        have h : Bytecode.PushConst 1 = op := by simpa using hget
        rw [← h]; simp [stackNeed]
    | 1, hget =>
        have h : Bytecode.Unknown = op := by simpa using hget
        rw [← h]; simp [stackNeed]

/-- C1: for every block run, whenever a reached instruction's `StepFlags`
has `wasPEI` true and the block has at least one exception edge, the runner
calls `propagate` on every exception-handler block of the block, passing
the snapshot of the state taken immediately before that instruction. -/
theorem C1_pei_propagation :
    ∀ (ctx : Ctx) (blk : Block) (st : State) (k : Nat) (stk : State)
      (op : Bytecode) (fl : StepFlags) (st' : State) (rf : RunFlags)
      (tr : List PCall),
      blk.throwExits ≠ [] →
      reachedState ctx blk.hhbcs st k = some stk →
      blk.hhbcs.get? k = some op →
      step ctx stk op = some (fl, st') →
      fl.wasPEI = true →
      run ctx blk st = some (rf, tr) →
      ∀ h ∈ blk.throwExits, (h, some stk) ∈ tr := by
  intro ctx blk st k stk op fl st' rf tr hex hreach hget hstep hpei hrun h hmem
  obtain ⟨acc1, tr1, heq⟩ := runFrom_decomp ctx blk.throwExits blk.fallthrough
    k blk.hhbcs st stk RunFlags.init hreach
  rw [run] at hrun
  rw [heq, drop_get hget] at hrun
  have hempty : blk.throwExits.isEmpty = false := by
    simp [List.isEmpty_iff, hex]
  by_cases hj : fl.jmpDest = NoBlockId
  · cases hrr : runFrom ctx blk.throwExits blk.fallthrough
        (blk.hhbcs.drop (k + 1)) st' (acc1.fold fl) with
    | none =>
        rw [runFrom, hstep] at hrun
        simp [hj, hrr, hempty, hpei] at hrun
    | some r =>
        rw [runFrom, hstep] at hrun
        simp [hj, hrr, hempty, hpei] at hrun
        rw [← hrun.2]
        exact List.mem_append_right _ (List.mem_append_left _
          (List.mem_map_of_mem _ hmem))
  · rw [runFrom, hstep] at hrun
    simp [hj, hempty, hpei] at hrun
    rw [← hrun.2]
    exact List.mem_append_right _ (List.mem_append_left _
      (List.mem_map_of_mem _ hmem))

/-- Witness for C1: a one-instruction block whose only instruction is
unanalyzable (hence a PEI) with a single exception edge to block 7: the
pre-instruction snapshot reaches handler 7. -/
theorem C1_pei_propagation_witness :
    ((7 : Nat), some (⟨[], []⟩ : State)) ∈
      [((7 : Nat), some (⟨[], []⟩ : State))] :=
  C1_pei_propagation ⟨0⟩ ⟨[.Unknown], none, [7]⟩ ⟨[], []⟩ 0 ⟨[], []⟩ .Unknown
    { mayReadLocalSet := Finset.univ } ⟨[], []⟩ RunFlags.init
    [(7, some ⟨[], []⟩)] (by simp) rfl rfl (by rfl) rfl (by rfl) 7
    (by simp)

/-- C2: when a reached instruction's `StepFlags.jmpDest` is set, the runner
propagates the current (post-instruction) state to that sole successor as
its one final propagate call and stops: the trace ends with exactly that
call, and no instruction after the jump is ever executed — replacing
everything after position `k` leaves the whole run unchanged. -/
theorem C2_jmp_sole_successor :
    ∀ (ctx : Ctx) (blk : Block) (st : State) (k : Nat) (stk : State)
      (op : Bytecode) (fl : StepFlags) (st' : State),
      reachedState ctx blk.hhbcs st k = some stk →
      blk.hhbcs.get? k = some op →
      step ctx stk op = some (fl, st') →
      fl.jmpDest ≠ NoBlockId →
      (∃ (rf : RunFlags) (tr1 : List PCall),
        run ctx blk st = some (rf, tr1 ++
          ((if fl.wasPEI && !blk.throwExits.isEmpty then
              blk.throwExits.map (fun h => (h, some stk)) else []) ++
            [(fl.jmpDest, some st')]))) ∧
      (∀ (l2 : List Bytecode), l2.take (k + 1) = blk.hhbcs.take (k + 1) →
        run ctx ⟨l2, blk.fallthrough, blk.throwExits⟩ st = run ctx blk st) := by
  intro ctx blk st k stk op fl st' hreach hget hstep hj
  constructor
  · obtain ⟨acc1, tr1, heq⟩ := runFrom_decomp ctx blk.throwExits blk.fallthrough
      k blk.hhbcs st stk RunFlags.init hreach
    refine ⟨acc1.fold fl, tr1, ?_⟩
    rw [run, heq, drop_get hget, runFrom, hstep]
    simp [hj]
  · intro l2 htake
    have := runFrom_jmp_prefix ctx blk.throwExits blk.fallthrough k blk.hhbcs
      l2 st RunFlags.init stk op fl st' htake.symm hreach hget hstep hj
    rw [run, run]
    exact this.symm

/-- Witness for C2: the spec's example block `[jmp B2; x = 1;]` propagates
`(B2, state)` exactly once and never executes the dead store — replacing it
by a different dead instruction leaves the run unchanged. -/
theorem C2_jmp_sole_successor_witness :
    (∃ (rf : RunFlags) (tr1 : List PCall),
      run ⟨0⟩ ⟨[.Jmp 2, .AssignConst 0 1], some 9, []⟩ ⟨[.IntVal 0], []⟩ =
        some (rf, tr1 ++
          (([] : List PCall) ++
            [((2 : Nat), some (⟨[.IntVal 0], []⟩ : State))]))) ∧
    run ⟨0⟩ ⟨[.Jmp 2, .RetConst 5], some 9, []⟩ ⟨[.IntVal 0], []⟩ =
      run ⟨0⟩ ⟨[.Jmp 2, .AssignConst 0 1], some 9, []⟩ ⟨[.IntVal 0], []⟩ := by
  have H := C2_jmp_sole_successor ⟨0⟩ ⟨[.Jmp 2, .AssignConst 0 1], some 9, []⟩
    ⟨[.IntVal 0], []⟩ 0 ⟨[.IntVal 0], []⟩ (.Jmp 2)
    { wasPEI := false, jmpDest := 2 } ⟨[.IntVal 0], []⟩
    rfl rfl (by rfl) (by simp [NoBlockId])
  constructor
  · simpa using H.1
  · exact H.2 [.Jmp 2, .RetConst 5] (by rfl)

/-- C6: when a reached instruction's `StepFlags.returned` is set (and no
jump was taken), the runner folds the return into the `RunFlags`
accumulator and continues iterating the block rather than stopping; the
`retParam` reported for a returned local is the local's id exactly when it
is a parameter echo and `NoLocalId` otherwise, so the spec's two example
blocks yield `returned = constant 1, retParam = NoLocalId` and
`retParam = 0` respectively. -/
theorem C6_return_folding :
    (∀ (ctx : Ctx) (instrs : List Bytecode) (st : State) (k : Nat)
        (stk : State) (op : Bytecode) (fl : StepFlags) (st' : State)
        (t : AType),
        reachedState ctx instrs st k = some stk →
        instrs.get? k = some op →
        step ctx stk op = some (fl, st') →
        fl.returned = some t →
        fl.jmpDest = NoBlockId →
        reachedState ctx instrs st (k + 1) = some st' ∧
        (∀ (exits : List Nat) (fall : Option Nat) (acc : RunFlags)
            (rf : RunFlags) (tr : List PCall),
          runFrom ctx exits fall instrs st acc = some (rf, tr) →
          rf.returned.isSome = true)) ∧
    (∀ (ctx : Ctx) (st : State) (loc : Nat),
        (step ctx st (.RetLocal loc)).map (fun r => r.1.retParam) =
          some (if loc < ctx.nParams then loc else NoLocalId)) ∧
    run ⟨0⟩ ⟨[.AssignConst 0 1, .RetLocal 0], none, []⟩ ⟨[.Bot], []⟩ =
      some ({ returned := some (.IntVal 1), retParam := NoLocalId }, []) ∧
    run ⟨1⟩ ⟨[.RetLocal 0], none, []⟩ ⟨[.IntT], []⟩ =
      some ({ returned := some .IntT, retParam := 0 }, []) := by
  refine ⟨?_, ?_, by rfl, by rfl⟩
  · intro ctx instrs st k stk op fl st' t hreach hget hstep hret hj
    constructor
    · exact reachedState_step ctx k instrs st stk op fl st' hreach hget hstep hj
    · intro exits fall acc rf tr hrun
      obtain ⟨acc1, tr1, heq⟩ := runFrom_decomp ctx exits fall k instrs st stk
        acc hreach
      rw [heq, drop_get hget, runFrom, hstep] at hrun
      cases hrr : runFrom ctx exits fall (instrs.drop (k + 1)) st'
          (acc1.fold fl) with
      | none => simp [hj, hrr] at hrun
      | some r =>
          simp [hj, hrr] at hrun
          have hr : r.1.returned.isSome = true :=
            runFrom_preserves_returned ctx exits fall (instrs.drop (k + 1))
              st' (acc1.fold fl) r.1 r.2
              (fold_returned_isSome (Or.inl (by rw [hret]; rfl)))
              (by rw [hrr])
          rw [← hrun.1]; exact hr
  · intro ctx st loc
    simp [step]

/-- Witness for C6: after `[return 3; nop]`'s first instruction returns,
iteration continues to the next instruction, and the completed run's
accumulator records the return. -/
theorem C6_return_folding_witness :
    reachedState ⟨0⟩ [.RetConst 3, .Nop] ⟨[], []⟩ 1 = some ⟨[], []⟩ ∧
    ({ returned := some (.IntVal 3), retParam := NoLocalId } :
      RunFlags).returned.isSome = true := by
  have H := C6_return_folding.1 ⟨0⟩ [.RetConst 3, .Nop] ⟨[], []⟩ 0 ⟨[], []⟩
    (.RetConst 3)
    { wasPEI := false, returned := some (.IntVal 3), retParam := NoLocalId }
    ⟨[], []⟩ (.IntVal 3) rfl rfl (by rfl) rfl rfl
  exact ⟨H.1, H.2 [] none RunFlags.init _ _ (by rfl)⟩

/-- C8: `const_fold` returns a result only when the resolved target is a
known pure function, every argument is a single statically-constant value
on the current abstract stack, and its evaluation succeeds; the result is
then itself a single concrete constant — never an approximated,
non-singleton type. -/
theorem C8_const_fold_opt_in :
    ∀ (st : State) (nArgs : Nat) (rfunc : ResFunc) (t : AType),
      const_fold st nArgs rfunc = some t →
      rfunc.knownPure = true ∧
      (∃ (vals : List Int) (r : Int),
        constArgs nArgs st.stack = some vals ∧
        rfunc.evalOn vals = some r ∧ t = .IntVal r) ∧
      t.isConst = true := by
  intro st nArgs rfunc t hfold
  unfold const_fold at hfold
  by_cases hp : rfunc.knownPure = true
  · rw [if_pos hp] at hfold
    cases hargs : constArgs nArgs st.stack with
    | none => rw [hargs] at hfold; simp at hfold
    | some vals =>
        rw [hargs] at hfold
        obtain ⟨r, hr, ht⟩ := Option.map_eq_some'.mp hfold
        subst ht
        exact ⟨hp, ⟨vals, r, rfl, hr, rfl⟩, rfl⟩
  · rw [if_neg hp] at hfold; simp at hfold

/-- Witness for C8: folding the pure call `add(2, 3)` with both arguments
constant on the stack yields the concrete constant 5. -/
theorem C8_const_fold_opt_in_witness :
    const_fold ⟨[], [.IntVal 3, .IntVal 2]⟩ 2 addFn = some (.IntVal 5) ∧
    (AType.IntVal 5).isConst = true :=
  ⟨by rfl,
   (C8_const_fold_opt_in ⟨[], [.IntVal 3, .IntVal 2]⟩ 2 addFn (.IntVal 5)
     (by rfl)).2.2⟩

end HHBBC
